import Mathlib

/-!
Shallow embedding of `ndb.py` (class `NDB`).

Modelling conventions:
* Machine floating-point values are modelled as exact rationals (every float
  is a rational).  The transcendental library primitives that the code calls
  (`np.sqrt` inside `np.std` / `np.linalg.norm`, `np.log`, `scipy.stats.norm.cdf`)
  have no rational closed form, so they are passed as explicit oracle
  parameters `sqrtO`, `logO`, `phiO : ℚ → ℚ`; every theorem below is
  quantified over those oracles (adding only the hypotheses it needs, such as
  non-negativity of the square-root primitive).
* Per-dimension whitening statistics `training_mean` / `training_std` are
  numpy scalars-or-vectors that broadcast over dimensions; they are modelled
  uniformly as functions `ℕ → ℚ` from the dimension index (the initial scalar
  `0.0` / `1.0` is the constant function).
* The external K-means clustering call (sklearn, together with the random
  dimension subsampling that only affects what the clusterer sees) is an
  external collaborator; it is modelled as an oracle
  `kmeans : List (List ℚ) → List ℕ` producing one label per whitened row.
* `construct_bins` additionally returns a `Bool` recording whether the
  clustering primitive was invoked (the pickle snapshot early-exit skips it).
-/

namespace NDBModel

/-- `self.ndb_eps = 1e-6` from `NDB.__init__`. -/
def ndb_eps : ℚ := 1 / 1000000

/-- Column mean: `np.mean(samples, axis=0)` at dimension `j`. -/
def colMean (samples : List (List ℚ)) (j : ℕ) : ℚ :=
  (samples.map (fun r => r.getD j 0)).sum / (samples.length : ℚ)

/-- Column variance (ddof = 0), i.e. the square of `np.std(samples, axis=0)`
at dimension `j`. -/
def colVar (samples : List (List ℚ)) (j : ℕ) : ℚ :=
  (samples.map (fun r => (r.getD j 0 - colMean samples j) ^ 2)).sum / (samples.length : ℚ)

/-- Elementwise whitening `(x - mean) / std` of one sample row. -/
def whitenVec (mean std : ℕ → ℚ) (x : List ℚ) : List ℚ :=
  (List.range x.length).map (fun j => (x.getD j 0 - mean j) / std j)

/-- Squared Euclidean distance between two rows; `np.linalg.norm(a - b, ord=2)`
is the square root of this. -/
def sqDist (a b : List ℚ) : ℚ := (List.zipWith (fun u v => (u - v) ^ 2) a b).sum

/-- Minimum of a list of rationals (`0` on the empty list, never used there). -/
def listMin : List ℚ → ℚ
  | [] => 0
  | [a] => a
  | a :: b :: t => min a (listMin (b :: t))

/-- `np.argmin`: index of the first occurrence of the minimum. -/
def argminIdx : List ℚ → ℕ
  | [] => 0
  | [_] => 0
  | a :: b :: t => if a ≤ listMin (b :: t) then 0 else argminIdx (b :: t) + 1

/-- The results dictionary built by `NDB.evaluate`. -/
structure EvalResult where
  ndb : ℕ
  js : Option ℚ
  proportions : List ℚ
  n : ℕ
  binAssignment : List ℕ
  differentBins : List Bool
deriving DecidableEq

/-- The pickled snapshot handled by `__read_from_bins_file` / `__write_to_bins_file`. -/
structure BinsData where
  proportions : List ℚ
  centers : List (List ℚ)
  n : ℕ
  mean : ℕ → ℚ
  std : ℕ → ℚ

/-- The mutable state of an `NDB` object. -/
structure NDBState where
  numberOfBins : ℕ
  significanceLevel : ℚ
  whitening : Bool
  trainingMean : ℕ → ℚ
  trainingStd : ℕ → ℚ
  binCenters : List (List ℚ)
  binProportions : List ℚ
  refSampleSize : ℕ
  cachedResults : String → Option EvalResult

/-- The state set up by `NDB.__init__` (before any `construct_bins` call):
`training_mean = 0.0`, `training_std = 1.0`, no bins, empty results cache. -/
def initialState (nb : ℕ) (sl : ℚ) (whitening : Bool) : NDBState :=
  { numberOfBins := nb
    significanceLevel := sl
    whitening := whitening
    trainingMean := fun _ => 0
    trainingStd := fun _ => 1
    binCenters := []
    binProportions := []
    refSampleSize := 0
    cachedResults := fun _ => none }

/-- `np.unique(l)`: the distinct values of `l` in increasing order. -/
def uniqueSorted (l : List ℕ) : List ℕ :=
  (List.range (l.foldr max 0 + 1)).filter (fun j => decide (j ∈ l))

/-- `label_counts` from `np.unique(labels, return_counts=True)` (line 68):
the number of occurrences of each distinct label, ordered by increasing
label value. -/
def countsOf (labels : List ℕ) : List ℕ :=
  (uniqueSorted labels).map (fun v => labels.count v)

/-- `np.argsort(-w)`: a permutation of the positions of `w` ordering the
values in descending order. -/
def argsortDesc (w : List ℕ) : List ℕ :=
  List.insertionSort (fun i j => w.getD j 0 ≤ w.getD i 0) (List.range w.length)

/-- `np.mean(rows, axis=0)` as a row vector. -/
def meanRows (rows : List (List ℚ)) : List ℚ :=
  (List.range (rows.headD []).length).map (colMean rows)

/-- Line 65: `bin_centers[i, :] = np.mean(whitened_samples[labels == i, :], axis=0)`. -/
def clusterMean (w : List (List ℚ)) (labels : List ℕ) (i : ℕ) : List ℚ :=
  meanRows ((w.zip labels).filterMap (fun wl => if wl.2 = i then some wl.1 else none))

/-- The whitening mean stored by `construct_bins` (line 45; unchanged if
`whitening` is off). -/
def fitMean (s : NDBState) (training : List (List ℚ)) : ℕ → ℚ :=
  if s.whitening then fun j => colMean training j else s.trainingMean

/-- The whitening std stored by `construct_bins` — line 46:
`np.std(training_samples, axis=0) + self.ndb_eps` (unchanged if `whitening`
is off). -/
def fitStd (sqrtO : ℚ → ℚ) (s : NDBState) (training : List (List ℚ)) : ℕ → ℚ :=
  if s.whitening then fun j => sqrtO (colVar training j) + ndb_eps else s.trainingStd

/-- Line 52: `whitened_samples = (training_samples - self.training_mean) / self.training_std`
with the statistics that `construct_bins` just stored. -/
def whitenedTraining (sqrtO : ℚ → ℚ) (s : NDBState) (training : List (List ℚ)) :
    List (List ℚ) :=
  training.map (whitenVec (fitMean s training) (fitStd sqrtO s training))

/-- `NDB.construct_bins`.  Returns the updated state together with a flag
recording whether the clustering primitive was invoked: if a snapshot
(`bins_file`) is present, `__read_from_bins_file` restores the five stored
fields and the method returns immediately (flag `false`); otherwise the
whitening statistics are computed, the clustering oracle is run on the
whitened samples, per-label bin centers are taken as means of the whitened
rows, and bins are reordered by descending population (lines 63-72). -/
def construct_bins (sqrtO : ℚ → ℚ) (kmeans : List (List ℚ) → List ℕ)
    (s : NDBState) (bins_file : Option BinsData) (training : List (List ℚ)) :
    NDBState × Bool :=
  match bins_file with
  | some snap =>
      ({ s with binProportions := snap.proportions
                binCenters := snap.centers
                refSampleSize := snap.n
                trainingMean := snap.mean
                trainingStd := snap.std }, false)
  | none =>
      let w := whitenedTraining sqrtO s training
      let labels := kmeans w
      let counts := countsOf labels
      let order := argsortDesc counts
      let total : ℚ := ((counts.sum : ℕ) : ℚ)
      let centersRaw := (List.range s.numberOfBins).map (fun i => clusterMean w labels i)
      ({ s with binProportions := order.map (fun idx => ((counts.getD idx 0 : ℕ) : ℚ) / total)
                binCenters := order.map (fun idx => centersRaw.getD idx [])
                refSampleSize := training.length
                trainingMean := fitMean s training
                trainingStd := fitStd sqrtO s training }, true)

/-- `NDB.two_proportions_z_test`, elementwise over the two proportion vectors;
`sqrtO` models `np.sqrt` and `phiO` models `scipy.stats.norm.cdf`. -/
def two_proportions_z_test (sqrtO phiO : ℚ → ℚ) (p1 : List ℚ) (n1 : ℚ)
    (p2 : List ℚ) (n2 : ℚ) (significance_level : ℚ) : List Bool :=
  List.zipWith (fun a b =>
    let p := (a * n1 + b * n2) / (n1 + n2)
    let se := sqrtO (p * (1 - p) * (1 / n1 + 1 / n2))
    let z := (a - b) / se
    decide (2 * phiO (-|z|) < significance_level)) p1 p2

/-- The per-element z-test criterion exactly as the spec words it: pooled
proportion, standard error, z-score, two-tailed p-value below `α`. -/
def zTestSpec (sqrtO phiO : ℚ → ℚ) (a n1 b n2 α : ℚ) : Prop :=
  2 * phiO (-|(a - b) /
      sqrtO ((a * n1 + b * n2) / (n1 + n2) * (1 - (a * n1 + b * n2) / (n1 + n2)) *
        (1 / n1 + 1 / n2))|) < α

/-- `NDB.kl_divergence`: `none` models the `assert` failure when some
`p_i != 0` faces `q_i == 0`; otherwise the sum of `p_i * log(p_i / q_i)` over
the positions with `p_i > 0` (`logO` models `np.log`).  The two finiteness
asserts are vacuous in this exact-rational model: every representable value
is finite. -/
def kl_divergence (logO : ℚ → ℚ) (p q : List ℚ) : Option ℚ :=
  if (p.zip q).any (fun pr => decide (pr.1 ≠ 0) && decide (pr.2 = 0)) then none
  else some ((((p.zip q).filter (fun pr => decide (0 < pr.1))).map
    (fun pr => pr.1 * logO (pr.1 / pr.2))).sum)

/-- `NDB.jensen_shannon_divergence`: `m = (p + q) * 0.5`,
`0.5 * (KL(p, m) + KL(q, m))`; an assert failure in either KL call
propagates (`none`). -/
def jensen_shannon_divergence (logO : ℚ → ℚ) (p q : List ℚ) : Option ℚ :=
  let m := List.zipWith (fun a b => (a + b) * (1 / 2)) p q
  match kl_divergence logO p m, kl_divergence logO q m with
  | some x, some y => some ((1 / 2) * (x + y))
  | _, _ => none

/-- Lines 150-152 of `__calculate_bin_proportions` for one query row: the row
`D[sample, :]` of Euclidean distances from the whitened row to every bin
center (`sqrtO` models the square root inside `np.linalg.norm`). -/
def binDistances (sqrtO : ℚ → ℚ) (mean std : ℕ → ℚ) (centers : List (List ℚ))
    (x : List ℚ) : List ℚ :=
  centers.map (fun c => sqrtO (sqDist (whitenVec mean std x) c))

/-- Line 153 for one query row: `np.argmin` over the distances to the bin
centers. -/
def nearestBin (sqrtO : ℚ → ℚ) (mean std : ℕ → ℚ) (centers : List (List ℚ))
    (x : List ℚ) : ℕ :=
  argminIdx (binDistances sqrtO mean std centers x)

/-- `NDB.__calculate_bin_proportions`: the per-bin query proportions (bins
with no assignment keep proportion `0`) and the per-row assignments. -/
def calculate_bin_proportions (sqrtO : ℚ → ℚ) (s : NDBState)
    (samples : List (List ℚ)) : List ℚ × List ℕ :=
  let labels := samples.map (nearestBin sqrtO s.trainingMean s.trainingStd s.binCenters)
  ((List.range s.binCenters.length).map
      (fun j => ((labels.count j : ℕ) : ℚ) / (samples.length : ℚ)), labels)

/-- `NDB.evaluate`: build the results record and, when `model_label` is
truthy (a non-empty string), store it in `cached_results` under that label. -/
def evaluate (sqrtO logO phiO : ℚ → ℚ) (s : NDBState) (samples : List (List ℚ))
    (model_label : Option String) : NDBState × EvalResult :=
  let n := samples.length
  let pr := calculate_bin_proportions sqrtO s samples
  let db := two_proportions_z_test sqrtO phiO s.binProportions (s.refSampleSize : ℚ)
    pr.1 (n : ℚ) s.significanceLevel
  let results : EvalResult :=
    { ndb := db.count true
      js := jensen_shannon_divergence logO s.binProportions pr.1
      proportions := pr.1
      n := n
      binAssignment := pr.2
      differentBins := db }
  match model_label with
  | some l =>
      if l = "" then (s, results)
      else ({ s with cachedResults :=
                fun key => if key = l then some results else s.cachedResults key }, results)
  | none => (s, results)

end NDBModel

namespace NDBModel

/-- Claim C4: when a snapshot is supplied, `construct_bins` restores
`bin_proportions`, `bin_centers`, `ref_sample_size` and the whitening
mean/std entirely from it, reports that the clustering primitive was not
invoked (flag `false`), and its outcome does not depend on the clustering
oracle at all: restore takes precedence over fitting from samples. -/
theorem claim_C4_snapshot_restore (sqrtO : ℚ → ℚ)
    (kmeans kmeans2 : List (List ℚ) → List ℕ) (s : NDBState) (snap : BinsData)
    (training : List (List ℚ)) :
    construct_bins sqrtO kmeans s (some snap) training =
      ({ s with binProportions := snap.proportions
                binCenters := snap.centers
                refSampleSize := snap.n
                trainingMean := snap.mean
                trainingStd := snap.std }, false) ∧
    construct_bins sqrtO kmeans s (some snap) training =
      construct_bins sqrtO kmeans2 s (some snap) training :=
  ⟨rfl, rfl⟩

/-- Claim C10: `evaluate` with the empty string as label leaves the state
(including the results cache) unchanged, exactly as if no label were
supplied, while still returning the same results record. -/
theorem claim_C10_empty_label (sqrtO logO phiO : ℚ → ℚ) (s : NDBState)
    (samples : List (List ℚ)) :
    (evaluate sqrtO logO phiO s samples (some "")).fst = s ∧
    (evaluate sqrtO logO phiO s samples (some "")).snd =
      (evaluate sqrtO logO phiO s samples none).snd :=
  ⟨rfl, rfl⟩

/-- The state that differs from `s` only in its results cache, where the
entry for label `l` now holds `r` (any prior entry for `l` is overwritten). -/
def withCachedResult (s : NDBState) (l : String) (r : EvalResult) : NDBState :=
  { s with cachedResults := fun key => if key = l then some r else s.cachedResults key }

/-- Claim C9: `evaluate` with no label is purely functional on the state;
with a non-empty label it changes only the results cache, storing the
returned results record under that label (overwriting any prior entry); and
for every label the fitted model state (bin centers, bin proportions,
reference sample size, whitening mean/std) is left unchanged. -/
theorem claim_C9_evaluate_frame (sqrtO logO phiO : ℚ → ℚ) (s : NDBState)
    (samples : List (List ℚ)) :
    ((evaluate sqrtO logO phiO s samples none).fst = s) ∧
    (∀ l : String, l ≠ "" →
      (evaluate sqrtO logO phiO s samples (some l)).fst =
        withCachedResult s l (evaluate sqrtO logO phiO s samples (some l)).snd) ∧
    (∀ lab : Option String,
      (evaluate sqrtO logO phiO s samples lab).fst.binCenters = s.binCenters ∧
      (evaluate sqrtO logO phiO s samples lab).fst.binProportions = s.binProportions ∧
      (evaluate sqrtO logO phiO s samples lab).fst.refSampleSize = s.refSampleSize ∧
      (evaluate sqrtO logO phiO s samples lab).fst.trainingMean = s.trainingMean ∧
      (evaluate sqrtO logO phiO s samples lab).fst.trainingStd = s.trainingStd) := by
  refine ⟨rfl, ?_, ?_⟩
  · intro l hl
    simp only [evaluate, withCachedResult]
    rw [if_neg hl]
  · intro lab
    match lab with
    | none => exact ⟨rfl, rfl, rfl, rfl, rfl⟩
    | some l =>
      by_cases h : l = ""
      · subst h
        exact ⟨rfl, rfl, rfl, rfl, rfl⟩
      · simp only [evaluate]
        rw [if_neg h]
        exact ⟨rfl, rfl, rfl, rfl, rfl⟩

/-- Concrete instance of the C9 frame property, with its hypothesis
discharged at the label `"m"`. -/
theorem claim_C9_evaluate_frame_witness :
    (evaluate (fun q => q) (fun q => q) (fun q => q) (initialState 1 (1 / 20) false)
        [[0]] (some "m")).fst =
      withCachedResult (initialState 1 (1 / 20) false) "m"
        ((evaluate (fun q => q) (fun q => q) (fun q => q) (initialState 1 (1 / 20) false)
          [[0]] (some "m")).snd) :=
  (claim_C9_evaluate_frame (fun q => q) (fun q => q) (fun q => q)
    (initialState 1 (1 / 20) false) [[0]]).2.1 "m" (by decide)

/-- Claim C7: the Jensen-Shannon divergence is symmetric; this holds for all
argument lists (an assert failure inside either KL call is symmetric as
well). -/
theorem claim_C7_js_symmetric (logO : ℚ → ℚ) (p q : List ℚ) :
    jensen_shannon_divergence logO p q = jensen_shannon_divergence logO q p := by
  have hm : List.zipWith (fun a b => (a + b) * (1 / 2)) p q =
      List.zipWith (fun a b => (a + b) * (1 / 2)) q p :=
    List.zipWith_comm_of_comm _ (fun a b => by ring) p q
  simp only [jensen_shannon_divergence, hm]
  rcases kl_divergence logO p (List.zipWith (fun a b => (a + b) * (1 / 2)) q p) with _ | x <;>
    rcases kl_divergence logO q (List.zipWith (fun a b => (a + b) * (1 / 2)) q p) with _ | y <;>
    simp [add_comm]

end NDBModel

namespace NDBModel

/-- Claim C1 (amended): with whitening enabled, the stored per-dimension std
is the per-dimension sample std PLUS epsilon (`np.std(...) + 1e-6`, line 46)
— in particular it never drops below `1e-6` as long as the square-root
primitive is non-negative — and the stored mean is the per-dimension sample
mean; with whitening disabled, the statistics keep their `__init__` values
mean = 0 and std = 1 (the identity transform). -/
theorem claim_C1_std_plus_eps (sqrtO : ℚ → ℚ) (kmeans : List (List ℚ) → List ℕ)
    (s : NDBState) (training : List (List ℚ)) (nb : ℕ) (sl : ℚ)
    (hw : s.whitening = true) (hpos : ∀ q, 0 ≤ sqrtO q) :
    ((construct_bins sqrtO kmeans s none training).fst.trainingMean =
      fun j => colMean training j) ∧
    ((construct_bins sqrtO kmeans s none training).fst.trainingStd =
      fun j => sqrtO (colVar training j) + ndb_eps) ∧
    (∀ j, ndb_eps ≤ (construct_bins sqrtO kmeans s none training).fst.trainingStd j) ∧
    ((construct_bins sqrtO kmeans (initialState nb sl false) none training).fst.trainingMean
      = fun _ => 0) ∧
    ((construct_bins sqrtO kmeans (initialState nb sl false) none training).fst.trainingStd
      = fun _ => 1) := by
  have hs : (construct_bins sqrtO kmeans s none training).fst.trainingStd
      = fitStd sqrtO s training := rfl
  refine ⟨?_, ?_, ?_, rfl, rfl⟩
  · show fitMean s training = _
    simp [fitMean, hw]
  · rw [hs]
    simp [fitStd, hw]
  · intro j
    rw [hs]
    simp only [fitStd, hw, if_true]
    exact le_add_of_nonneg_left (hpos _)

/-- Concrete instance of the C1 amended property: two one-dimensional
training samples `0` and `2`, whose sample variance is `1`; the square-root
oracle `fun q => |q|` is exact there (`√1 = 1`) and non-negative. -/
theorem claim_C1_std_plus_eps_witness :
    (construct_bins (fun q => |q|) (fun _ => [0, 1]) (initialState 2 (1 / 20) true) none
        [[0], [2]]).fst.trainingStd =
      fun j => |colVar [[0], [2]] j| + ndb_eps :=
  (claim_C1_std_plus_eps (fun q => |q|) (fun _ => [0, 1]) (initialState 2 (1 / 20) true)
    [[0], [2]] 2 (1 / 20) rfl (fun q => abs_nonneg q)).2.1

/-- Claim C1 counterexample: for the training samples `[[0], [2]]` the
per-dimension sample std is `1` (the variance is `1` and the square-root
primitive — instantiated as `fun q => |q|`, which is exact at `1` — returns
`1`), which is well above `epsilon = 1e-6`; yet the stored whitening std is
`1 + 1e-6`, not the sample std `1`.  The code adds epsilon
(`np.std(...) + self.ndb_eps`) instead of flooring at epsilon, so the stored
std differs from the sample std even when the latter is at least `1e-6`. -/
theorem claim_C1_counterexample :
    |colVar [[0], [2]] 0| = 1 ∧
    ndb_eps ≤ 1 ∧
    (construct_bins (fun q => |q|) (fun _ => [0, 1]) (initialState 2 (1 / 20) true) none
        [[0], [2]]).fst.trainingStd 0 = 1 + ndb_eps ∧
    (construct_bins (fun q => |q|) (fun _ => [0, 1]) (initialState 2 (1 / 20) true) none
        [[0], [2]]).fst.trainingStd 0 ≠ 1 := by
  have hv : colVar [[0], [2]] 0 = 1 := by
    norm_num [colVar, colMean, List.getD]
  have hst : (construct_bins (fun q => |q|) (fun _ => [0, 1]) (initialState 2 (1 / 20) true)
      none [[0], [2]]).fst.trainingStd 0 = |colVar [[0], [2]] 0| + ndb_eps := rfl
  refine ⟨?_, ?_, ?_, ?_⟩
  · rw [hv]
    exact abs_one
  · norm_num [ndb_eps]
  · rw [hst, hv, abs_one]
  · rw [hst, hv, abs_one]
    norm_num [ndb_eps]

end NDBModel

namespace NDBModel

/-- Index access commutes with `List.zipWith` (within both lengths). -/
theorem getD_zipWith {α β γ : Type} (f : α → β → γ) (p : List α) :
    ∀ (q : List β) (i : ℕ), i < p.length → i < q.length → ∀ (da : α) (db : β) (dc : γ),
      (List.zipWith f p q).getD i dc = f (p.getD i da) (q.getD i db) := by
  induction p with
  | nil =>
    intro q i hp
    simp at hp
  | cons a p ih =>
    intro q i hp hq da db dc
    cases q with
    | nil => simp at hq
    | cons b q =>
      cases i with
      | zero => rfl
      | succ i =>
        simp only [List.zipWith_cons_cons, List.getD_cons_succ]
        exact ih q i (by simpa using hp) (by simpa using hq) da db dc

/-- Claim C6: elementwise, `two_proportions_z_test` flags index `i` exactly
when the two-tailed p-value `2 * Φ(-|z|)` is below the significance level,
with `z = (p1 - p2) / se`, `se = sqrt(p * (1 - p) * (1/n1 + 1/n2))` and
pooled proportion `p = (p1 * n1 + p2 * n2) / (n1 + n2)` (the square root and
the standard normal CDF being the library primitives `sqrtO` / `phiO`). -/
theorem claim_C6_z_test_elementwise (sqrtO phiO : ℚ → ℚ) (p1 p2 : List ℚ)
    (n1 n2 α : ℚ) (i : ℕ) (h1 : i < p1.length) (h2 : i < p2.length) :
    (two_proportions_z_test sqrtO phiO p1 n1 p2 n2 α).getD i false = true ↔
      zTestSpec sqrtO phiO (p1.getD i 0) n1 (p2.getD i 0) n2 α := by
  unfold two_proportions_z_test
  rw [getD_zipWith _ p1 p2 i h1 h2 0 0 false]
  simp [zTestSpec]

/-- Concrete instance of the C6 elementwise z-test property at index 0 of
two one-bin proportion vectors. -/
theorem claim_C6_z_test_elementwise_witness :
    (0 : ℕ) < [(1 : ℚ)/2].length ∧
    ((two_proportions_z_test (fun q => q) (fun q => q) [1/2] 10 [1/4] 10 (1/20)).getD 0 false
        = true ↔ zTestSpec (fun q => q) (fun q => q) (([(1 : ℚ)/2]).getD 0 0) 10
          (([(1 : ℚ)/4]).getD 0 0) 10 (1/20)) :=
  ⟨by decide, claim_C6_z_test_elementwise (fun q => q) (fun q => q) [1/2] [1/4] 10 10 (1/20) 0
    (by decide) (by decide)⟩

end NDBModel

namespace NDBModel

/-- `listMin` is a lower bound of its list. -/
theorem listMin_le (l : List ℚ) : ∀ x ∈ l, listMin l ≤ x := by
  induction l with
  | nil =>
    intro x hx
    simp at hx
  | cons a t ih =>
    intro x hx
    cases t with
    | nil =>
      simp at hx
      subst hx
      simp [listMin]
    | cons b t2 =>
      simp only [listMin]
      rcases List.mem_cons.mp hx with h | h
      · subst h
        exact min_le_left _ _
      · exact le_trans (min_le_right _ _) (ih x h)

/-- `argminIdx` of a non-empty list is a valid index. -/
theorem argminIdx_lt_length (l : List ℚ) (hl : l ≠ []) : argminIdx l < l.length := by
  induction l with
  | nil => exact absurd rfl hl
  | cons a t ih =>
    cases t with
    | nil => simp [argminIdx]
    | cons b t2 =>
      simp only [argminIdx]
      split
      · simp
      · have h := ih (by simp)
        simp only [List.length_cons] at h ⊢
        omega

/-- `argminIdx` points at the minimum value. -/
theorem getD_argminIdx (l : List ℚ) (hl : l ≠ []) : l.getD (argminIdx l) 0 = listMin l := by
  induction l with
  | nil => exact absurd rfl hl
  | cons a t ih =>
    cases t with
    | nil => simp [argminIdx, listMin]
    | cons b t2 =>
      simp only [argminIdx, listMin]
      split
      · rename_i h
        simp [min_eq_left h]
      · rename_i h
        push_neg at h
        rw [List.getD_cons_succ, ih (by simp), min_eq_right (le_of_lt h)]

/-- Every index strictly before `argminIdx` holds a strictly larger value:
`argminIdx` is the FIRST occurrence of the minimum, like `np.argmin`. -/
theorem lt_getD_of_lt_argminIdx (l : List ℚ) : ∀ j < argminIdx l, listMin l < l.getD j 0 := by
  induction l with
  | nil =>
    intro j hj
    simp [argminIdx] at hj
  | cons a t ih =>
    intro j hj
    cases t with
    | nil => simp [argminIdx] at hj
    | cons b t2 =>
      simp only [argminIdx] at hj
      by_cases h : a ≤ listMin (b :: t2)
      · rw [if_pos h] at hj
        exact absurd hj (by omega)
      · rw [if_neg h] at hj
        push_neg at h
        have hmin : listMin (a :: b :: t2) = listMin (b :: t2) := by
          simp [listMin, min_eq_right (le_of_lt h)]
        cases j with
        | zero =>
          rw [hmin, List.getD_cons_zero]
          exact h
        | succ j =>
          rw [hmin, List.getD_cons_succ]
          exact ih j (Nat.lt_of_succ_lt_succ hj)

/-- Claim C8: each query row is assigned to a valid bin index whose Euclidean
distance (the entry of the computed distance row `binDistances`) is minimal,
and every bin with a strictly smaller index is at a strictly larger distance
— so among equidistant nearest centers the lowest index wins. -/
theorem claim_C8_nearest_bin (sqrtO : ℚ → ℚ) (mean std : ℕ → ℚ)
    (centers : List (List ℚ)) (x : List ℚ) (hc : centers ≠ []) :
    nearestBin sqrtO mean std centers x < centers.length ∧
    (∀ j < centers.length,
      (binDistances sqrtO mean std centers x).getD (nearestBin sqrtO mean std centers x) 0 ≤
        (binDistances sqrtO mean std centers x).getD j 0) ∧
    (∀ j < nearestBin sqrtO mean std centers x,
      (binDistances sqrtO mean std centers x).getD (nearestBin sqrtO mean std centers x) 0 <
        (binDistances sqrtO mean std centers x).getD j 0) := by
  have hlen : (binDistances sqrtO mean std centers x).length = centers.length := by
    simp [binDistances]
  have hne : binDistances sqrtO mean std centers x ≠ [] := by
    simp only [binDistances, ne_eq, List.map_eq_nil_iff]
    exact hc
  have hnb : nearestBin sqrtO mean std centers x =
      argminIdx (binDistances sqrtO mean std centers x) := rfl
  have hmin : (binDistances sqrtO mean std centers x).getD
      (argminIdx (binDistances sqrtO mean std centers x)) 0 =
      listMin (binDistances sqrtO mean std centers x) :=
    getD_argminIdx _ hne
  refine ⟨?_, ?_, ?_⟩
  · rw [hnb, ← hlen]
    exact argminIdx_lt_length _ hne
  · intro j hj
    rw [hnb, hmin]
    have hjlen : j < (binDistances sqrtO mean std centers x).length := by
      rw [hlen]
      exact hj
    rw [List.getD_eq_getElem _ 0 hjlen]
    exact listMin_le _ _ (List.getElem_mem hjlen)
  · intro j hj
    rw [hnb, hmin]
    exact lt_getD_of_lt_argminIdx _ j hj

/-- Concrete instance of the C8 nearest-bin property, for one query row and
two one-dimensional bin centers. -/
theorem claim_C8_nearest_bin_witness :
    nearestBin (fun q => q) (fun _ => 0) (fun _ => 1) [[1], [0]] [0] < ([[1], [0]] : List (List ℚ)).length ∧
    (∀ j < ([[1], [0]] : List (List ℚ)).length,
      (binDistances (fun q => q) (fun _ => 0) (fun _ => 1) [[1], [0]] [0]).getD
          (nearestBin (fun q => q) (fun _ => 0) (fun _ => 1) [[1], [0]] [0]) 0 ≤
        (binDistances (fun q => q) (fun _ => 0) (fun _ => 1) [[1], [0]] [0]).getD j 0) ∧
    (∀ j < nearestBin (fun q => q) (fun _ => 0) (fun _ => 1) [[1], [0]] [0],
      (binDistances (fun q => q) (fun _ => 0) (fun _ => 1) [[1], [0]] [0]).getD
          (nearestBin (fun q => q) (fun _ => 0) (fun _ => 1) [[1], [0]] [0]) 0 <
        (binDistances (fun q => q) (fun _ => 0) (fun _ => 1) [[1], [0]] [0]).getD j 0) :=
  claim_C8_nearest_bin (fun q => q) (fun _ => 0) (fun _ => 1) [[1], [0]] [0] (by decide)

end NDBModel

namespace NDBModel

/-- The assert guard of `kl_divergence` fires exactly when some index has
`p_i != 0` and `q_i == 0` (for equal-length inputs). -/
theorem kl_guard_iff (p : List ℚ) : ∀ (q : List ℚ), p.length = q.length →
    (((p.zip q).any (fun pr => decide (pr.1 ≠ 0) && decide (pr.2 = 0))) = true ↔
      ∃ i < p.length, p.getD i 0 ≠ 0 ∧ q.getD i 0 = 0) := by
  induction p with
  | nil =>
    intro q h
    simp
  | cons a p ih =>
    intro q h
    cases q with
    | nil => simp at h
    | cons b q =>
      simp only [List.zip_cons_cons, List.any_cons, Bool.or_eq_true, Bool.and_eq_true,
        decide_eq_true_eq]
      constructor
      · rintro (⟨ha, hb⟩ | hrest)
        · exact ⟨0, Nat.succ_pos _, by simpa using ha, by simpa using hb⟩
        · obtain ⟨i, hi, h1, h2⟩ := (ih q (by simpa using h)).mp hrest
          exact ⟨i + 1, by simpa using hi, by simpa using h1, by simpa using h2⟩
      · rintro ⟨i, hi, h1, h2⟩
        cases i with
        | zero =>
          left
          exact ⟨by simpa using h1, by simpa using h2⟩
        | succ i =>
          right
          exact (ih q (by simpa using h)).mpr
            ⟨i, by simpa using hi, by simpa using h1, by simpa using h2⟩

/-- The filtered list sum computed by `kl_divergence` equals the indexed sum
over exactly the positions with `p_i > 0`. -/
theorem kl_sum_eq (logO : ℚ → ℚ) (p : List ℚ) : ∀ (q : List ℚ), p.length = q.length →
    (((p.zip q).filter (fun pr => decide (0 < pr.1))).map
      (fun pr => pr.1 * logO (pr.1 / pr.2))).sum =
    ∑ i in Finset.range p.length,
      if 0 < p.getD i 0 then p.getD i 0 * logO (p.getD i 0 / q.getD i 0) else 0 := by
  induction p with
  | nil =>
    intro q h
    simp
  | cons a p ih =>
    intro q h
    cases q with
    | nil => simp at h
    | cons b q =>
      rw [List.zip_cons_cons, List.filter_cons, List.length_cons, Finset.sum_range_succ']
      simp only [List.getD_cons_succ, List.getD_cons_zero, List.length_cons]
      by_cases h0 : 0 < a
      · rw [if_pos (by simpa using h0), List.map_cons, List.sum_cons,
          ih q (by simpa using h), if_pos h0, add_comm]
      · rw [if_neg (by simpa using h0), ih q (by simpa using h), if_neg h0, add_zero]

/-- Claim C5: for equal-length inputs, `kl_divergence` fails (returns `none`,
modelling the `assert`) exactly when some index has `p_i != 0` and `q_i == 0`;
when every such index is excluded it returns the sum of
`p_i * log(p_i / q_i)` over exactly the indices where `p_i > 0`.  (The two
finiteness asserts are vacuous here: every representable rational is finite,
so non-finite entries cannot arise in this embedding.) -/
theorem claim_C5_kl_guard_and_sum (logO : ℚ → ℚ) (p q : List ℚ)
    (h : p.length = q.length) :
    (kl_divergence logO p q = none ↔ ∃ i < p.length, p.getD i 0 ≠ 0 ∧ q.getD i 0 = 0) ∧
    ((∀ i < p.length, p.getD i 0 ≠ 0 → q.getD i 0 ≠ 0) →
      kl_divergence logO p q = some (∑ i in Finset.range p.length,
        if 0 < p.getD i 0 then p.getD i 0 * logO (p.getD i 0 / q.getD i 0) else 0)) := by
  unfold kl_divergence
  cases hg : (p.zip q).any (fun pr => decide (pr.1 ≠ 0) && decide (pr.2 = 0)) with
  | false =>
    rw [if_neg (by simp [hg])]
    constructor
    · simp only [Option.some_ne_none, false_iff]
      intro hex
      rw [← kl_guard_iff p q h, hg] at hex
      simp at hex
    · intro hall
      rw [kl_sum_eq logO p q h]
  | true =>
    rw [if_pos (by simp [hg])]
    have hex := (kl_guard_iff p q h).mp hg
    constructor
    · simp only [true_iff]
      exact hex
    · intro hall
      obtain ⟨i, hi, h1, h2⟩ := hex
      exact absurd h2 (hall i hi h1)

/-- Concrete instance of the C5 KL property on the two-bin distributions
`p = [1/2, 1/2]` and `q = [1/4, 3/4]`. -/
theorem claim_C5_kl_guard_and_sum_witness :
    ((kl_divergence (fun q => q) [1/2, 1/2] [1/4, 3/4] = none ↔
        ∃ i < ([(1 : ℚ)/2, 1/2]).length,
          ([(1 : ℚ)/2, 1/2]).getD i 0 ≠ 0 ∧ ([(1 : ℚ)/4, 3/4]).getD i 0 = 0) ∧
      ((∀ i < ([(1 : ℚ)/2, 1/2]).length,
          ([(1 : ℚ)/2, 1/2]).getD i 0 ≠ 0 → ([(1 : ℚ)/4, 3/4]).getD i 0 ≠ 0) →
        kl_divergence (fun q => q) [1/2, 1/2] [1/4, 3/4] =
          some (∑ i in Finset.range ([(1 : ℚ)/2, 1/2]).length,
            if 0 < ([(1 : ℚ)/2, 1/2]).getD i 0 then
              ([(1 : ℚ)/2, 1/2]).getD i 0 *
                (fun q => q) (([(1 : ℚ)/2, 1/2]).getD i 0 / ([(1 : ℚ)/4, 3/4]).getD i 0)
            else 0))) :=
  claim_C5_kl_guard_and_sum (fun q => q) [1/2, 1/2] [1/4, 3/4] (by simp)

end NDBModel

namespace NDBModel

/-- A pointwise sum of two functions splits over `List.map`. -/
theorem sum_map_add {α : Type} (l : List α) (f g : α → ℕ) :
    (l.map (fun x => f x + g x)).sum = (l.map f).sum + (l.map g).sum := by
  induction l with
  | nil => simp
  | cons a t ih =>
    simp only [List.map_cons, List.sum_cons, ih]
    omega

/-- Every element is at most the running `foldr max`. -/
theorem le_foldr_max (l : List ℕ) : ∀ x ∈ l, x ≤ l.foldr max 0 := by
  induction l with
  | nil =>
    intro x hx
    simp at hx
  | cons a t ih =>
    intro x hx
    rcases List.mem_cons.mp hx with h | h
    · subst h
      exact le_max_left _ _
    · exact le_trans (ih x h) (le_max_right _ _)

/-- The running `foldr max` is at most any upper bound of the list. -/
theorem foldr_max_le (l : List ℕ) (b : ℕ) (hb : ∀ x ∈ l, x ≤ b) : l.foldr max 0 ≤ b := by
  induction l with
  | nil => simp
  | cons a t ih =>
    simp only [List.foldr_cons]
    exact max_le (hb a (by simp)) (ih (fun x hx => hb x (by simp [hx])))

/-- When every label below `k` occurs and no label reaches `k`,
`np.unique` returns exactly `0, ..., k-1`. -/
theorem uniqueSorted_eq_range (k : ℕ) (labels : List ℕ) (hk : 0 < k)
    (hval : ∀ l ∈ labels, l < k) (hall : ∀ j < k, j ∈ labels) :
    uniqueSorted labels = List.range k := by
  have h1 : labels.foldr max 0 + 1 = k := by
    have hub : labels.foldr max 0 ≤ k - 1 :=
      foldr_max_le _ _ (fun x hx => by have := hval x hx; omega)
    have hlb : k - 1 ≤ labels.foldr max 0 := le_foldr_max _ _ (hall (k - 1) (by omega))
    omega
  unfold uniqueSorted
  rw [h1]
  apply List.filter_eq_self.mpr
  intro j hj
  rw [List.mem_range] at hj
  exact decide_eq_true (hall j hj)

/-- The indicator of a value below `k` sums to `1` over `range k`. -/
theorem sum_indicator (a : ℕ) : ∀ (k : ℕ), a < k →
    ((List.range k).map (fun v => if a = v then 1 else 0)).sum = 1 := by
  intro k
  induction k with
  | zero => omega
  | succ k ih =>
    intro ha
    rw [List.range_succ, List.map_append, List.sum_append]
    by_cases h : a = k
    · have hz : ((List.range k).map (fun v => if a = v then 1 else 0)).sum = 0 := by
        apply List.sum_eq_zero
        intro x hx
        obtain ⟨v, hv, rfl⟩ := List.mem_map.mp hx
        rw [List.mem_range] at hv
        exact if_neg (by omega)
      rw [hz]
      simp [h]
    · have hlt : a < k := by omega
      rw [ih hlt]
      simp [h]

/-- Per-value occurrence counts over `range k` sum to the list length
when every element is below `k`. -/
theorem sum_counts (k : ℕ) : ∀ (labels : List ℕ), (∀ l ∈ labels, l < k) →
    ((List.range k).map (fun v => labels.count v)).sum = labels.length := by
  intro labels
  induction labels with
  | nil =>
    intro _
    simp
  | cons a t ih =>
    intro hval
    have hmap : (List.range k).map (fun v => (a :: t).count v)
        = (List.range k).map (fun v => t.count v + if a = v then 1 else 0) := by
      apply List.map_congr_left
      intro v _
      simp [List.count_cons]
    rw [hmap, sum_map_add, ih (fun l hl => hval l (by simp [hl])),
      sum_indicator a k (hval a (by simp)), List.length_cons]

/-- Reading a list back by indices `0, ..., length-1` reproduces it. -/
theorem map_getD_range {α : Type} (d : α) (w : List α) :
    (List.range w.length).map (fun i => w.getD i d) = w := by
  induction w with
  | nil => simp
  | cons a t ih =>
    rw [List.length_cons, List.range_succ_eq_map, List.map_cons, List.map_map]
    show a :: (List.range t.length).map (fun i => t.getD i d) = a :: t
    rw [ih]

/-- `argsortDesc` is a permutation of the index range. -/
theorem argsortDesc_perm (w : List ℕ) : (argsortDesc w).Perm (List.range w.length) :=
  List.perm_insertionSort _ _

/-- `argsortDesc` has one entry per position of `w`. -/
theorem argsortDesc_length (w : List ℕ) : (argsortDesc w).length = w.length := by
  simp [argsortDesc, List.length_insertionSort, List.length_range]

/-- Reading `w` in `argsortDesc` order is a permutation of `w`. -/
theorem map_argsortDesc_perm (w : List ℕ) :
    ((argsortDesc w).map (fun i => w.getD i 0)).Perm w := by
  have h := (argsortDesc_perm w).map (fun i => w.getD i 0)
  rwa [map_getD_range] at h

/-- A constant divisor factors out of a list sum. -/
theorem sum_map_div (l : List ℚ) (c : ℚ) : (l.map (fun x => x / c)).sum = l.sum / c := by
  induction l with
  | nil => simp
  | cons a t ih => simp [ih, add_div]

/-- The reordered normalized counts sum to exactly `1` when the total
count is non-zero. -/
theorem sum_props (w : List ℕ) (hw : w.sum ≠ 0) :
    ((argsortDesc w).map (fun idx => ((w.getD idx 0 : ℕ) : ℚ) / (w.sum : ℚ))).sum = 1 := by
  have h1 : (argsortDesc w).map (fun idx => ((w.getD idx 0 : ℕ) : ℚ) / (w.sum : ℚ))
      = (((argsortDesc w).map (fun idx => w.getD idx 0)).map
          (fun c : ℕ => (c : ℚ))).map (fun x => x / (w.sum : ℚ)) := by
    rw [List.map_map, List.map_map]
    rfl
  rw [h1, sum_map_div]
  have h2 : (((argsortDesc w).map (fun idx => w.getD idx 0)).map (fun c : ℕ => (c : ℚ))).sum
      = ((w.map (fun c : ℕ => (c : ℚ))).sum) :=
    List.Perm.sum_eq ((map_argsortDesc_perm w).map _)
  rw [h2, ← Nat.cast_list_sum]
  exact div_self (Nat.cast_ne_zero.mpr hw)

/-- `argsortDesc` sorts the positions by descending value of `w`. -/
theorem sorted_argsortDesc (w : List ℕ) :
    List.Sorted (fun i j => w.getD j 0 ≤ w.getD i 0) (argsortDesc w) := by
  haveI : IsTotal ℕ (fun i j => w.getD j 0 ≤ w.getD i 0) :=
    ⟨fun a b => le_total (w.getD b 0) (w.getD a 0)⟩
  haveI : IsTrans ℕ (fun i j => w.getD j 0 ≤ w.getD i 0) :=
    ⟨fun _ _ _ hab hbc => le_trans hbc hab⟩
  exact List.sorted_insertionSort _ _

/-- Consecutive entries of the reordered normalized counts are
non-increasing. -/
theorem props_sorted (w : List ℕ) (i : ℕ) (hi : i + 1 < (argsortDesc w).length) :
    ((argsortDesc w).map (fun idx => ((w.getD idx 0 : ℕ) : ℚ) / (w.sum : ℚ))).getD (i + 1) 0 ≤
    ((argsortDesc w).map (fun idx => ((w.getD idx 0 : ℕ) : ℚ) / (w.sum : ℚ))).getD i 0 := by
  have hi1 : i < (argsortDesc w).length := by omega
  have hmap1 : i + 1 < ((argsortDesc w).map
      (fun idx => ((w.getD idx 0 : ℕ) : ℚ) / (w.sum : ℚ))).length := by
    simpa using hi
  have hmap2 : i < ((argsortDesc w).map
      (fun idx => ((w.getD idx 0 : ℕ) : ℚ) / (w.sum : ℚ))).length := by
    simpa using hi1
  rw [List.getD_eq_getElem _ 0 hmap1, List.getD_eq_getElem _ 0 hmap2,
    List.getElem_map, List.getElem_map]
  have hrel := @List.Sorted.rel_get_of_lt ℕ (fun i j => w.getD j 0 ≤ w.getD i 0)
    (argsortDesc w) (sorted_argsortDesc w) ⟨i, hi1⟩ ⟨i + 1, hi⟩
    (by rw [Fin.mk_lt_mk]; omega)
  have hle : (w.getD ((argsortDesc w)[i + 1]) 0 : ℚ) ≤ (w.getD ((argsortDesc w)[i]) 0 : ℚ) := by
    exact_mod_cast hrel
  rcases eq_or_ne ((w.sum : ℚ)) 0 with hs | hs
  · simp [hs]
  · have hpos : (0 : ℚ) < (w.sum : ℚ) := by
      rcases (Nat.cast_nonneg w.sum : (0 : ℚ) ≤ (w.sum : ℚ)).lt_or_eq with h | h
      · exact h
      · exact absurd h.symm hs
    exact (div_le_div_iff_of_pos_right hpos).mpr hle

end NDBModel

namespace NDBModel

/-- When every label below `k` occurs and all labels are below `k` (the
K-means guarantee for `n ≥ k`), `np.unique`'s counts are the per-label
occurrence counts over `0, ..., k-1`. -/
theorem countsOf_eq_range_map (k : ℕ) (labels : List ℕ) (hk : 0 < k)
    (hval : ∀ l ∈ labels, l < k) (hall : ∀ j < k, j ∈ labels) :
    countsOf labels = (List.range k).map (fun v => labels.count v) := by
  rw [countsOf, uniqueSorted_eq_range k labels hk hval hall]

/-- The bin proportions stored by a fit are the reordered normalized counts. -/
theorem binProps_eq (sqrtO : ℚ → ℚ) (kmeans : List (List ℚ) → List ℕ)
    (s : NDBState) (training : List (List ℚ)) :
    (construct_bins sqrtO kmeans s none training).fst.binProportions =
      (argsortDesc (countsOf (kmeans (whitenedTraining sqrtO s training)))).map
        (fun idx =>
          (((countsOf (kmeans (whitenedTraining sqrtO s training))).getD idx 0 : ℕ) : ℚ) /
          (((countsOf (kmeans (whitenedTraining sqrtO s training))).sum : ℕ) : ℚ)) := rfl

/-- Claim C2: after a fit from samples with `k ≥ 1`, `n ≥ k` training rows,
and a clustering outcome with one label per row, all labels below `k` and
every cluster non-empty (the sklearn K-means guarantee), the stored
`bin_proportions` has exactly `k` entries — co-indexed with the `k` rows of
`bin_centers` — all non-negative, and sums to exactly `1`. -/
theorem claim_C2_proportions_invariant (sqrtO : ℚ → ℚ) (kmeans : List (List ℚ) → List ℕ)
    (s : NDBState) (training : List (List ℚ))
    (hk : 1 ≤ s.numberOfBins) (hn : s.numberOfBins ≤ training.length)
    (hlen : (kmeans (whitenedTraining sqrtO s training)).length = training.length)
    (hval : ∀ l ∈ kmeans (whitenedTraining sqrtO s training), l < s.numberOfBins)
    (hall : ∀ j < s.numberOfBins, j ∈ kmeans (whitenedTraining sqrtO s training)) :
    (construct_bins sqrtO kmeans s none training).fst.binProportions.length = s.numberOfBins ∧
    (construct_bins sqrtO kmeans s none training).fst.binCenters.length = s.numberOfBins ∧
    (∀ pr ∈ (construct_bins sqrtO kmeans s none training).fst.binProportions, 0 ≤ pr) ∧
    (construct_bins sqrtO kmeans s none training).fst.binProportions.sum = 1 := by
  have hC := countsOf_eq_range_map s.numberOfBins (kmeans (whitenedTraining sqrtO s training))
    (by omega) hval hall
  have hClen : (countsOf (kmeans (whitenedTraining sqrtO s training))).length
      = s.numberOfBins := by
    rw [hC, List.length_map, List.length_range]
  have hCsum : (countsOf (kmeans (whitenedTraining sqrtO s training))).sum
      = training.length := by
    rw [hC, sum_counts _ _ hval, hlen]
  have hsum_ne : (countsOf (kmeans (whitenedTraining sqrtO s training))).sum ≠ 0 := by
    rw [hCsum]
    omega
  refine ⟨?_, ?_, ?_, ?_⟩
  · rw [binProps_eq, List.length_map, argsortDesc_length, hClen]
  · have hbc : (construct_bins sqrtO kmeans s none training).fst.binCenters =
        (argsortDesc (countsOf (kmeans (whitenedTraining sqrtO s training)))).map
          (fun idx => (((List.range s.numberOfBins).map
            (fun i => clusterMean (whitenedTraining sqrtO s training)
              (kmeans (whitenedTraining sqrtO s training)) i)).getD idx [])) := rfl
    rw [hbc, List.length_map, argsortDesc_length, hClen]
  · intro pr hpr
    rw [binProps_eq] at hpr
    obtain ⟨idx, _, rfl⟩ := List.mem_map.mp hpr
    positivity
  · rw [binProps_eq, sum_props _ hsum_ne]

/-- Concrete instance of the C2 invariant: two bins over three training rows
with clustering outcome `[0, 1, 1]`. -/
theorem claim_C2_proportions_invariant_witness :
    (construct_bins (fun q => q) (fun _ => [0, 1, 1]) (initialState 2 (1 / 20) false) none
        [[0], [1], [2]]).fst.binProportions.length = (initialState 2 (1 / 20) false).numberOfBins ∧
    (construct_bins (fun q => q) (fun _ => [0, 1, 1]) (initialState 2 (1 / 20) false) none
        [[0], [1], [2]]).fst.binCenters.length = (initialState 2 (1 / 20) false).numberOfBins ∧
    (∀ pr ∈ (construct_bins (fun q => q) (fun _ => [0, 1, 1]) (initialState 2 (1 / 20) false) none
        [[0], [1], [2]]).fst.binProportions, 0 ≤ pr) ∧
    (construct_bins (fun q => q) (fun _ => [0, 1, 1]) (initialState 2 (1 / 20) false) none
        [[0], [1], [2]]).fst.binProportions.sum = 1 :=
  claim_C2_proportions_invariant (fun q => q) (fun _ => [0, 1, 1])
    (initialState 2 (1 / 20) false) [[0], [1], [2]]
    (by decide) (by decide) (by decide) (by decide) (by decide)

/-- Claim C3: after any fit from samples (whatever the clustering outcome),
the stored `bin_proportions` is non-increasing: entry `i+1` never exceeds
entry `i`, so bin index 0 is the largest reference bin. -/
theorem claim_C3_descending_proportions (sqrtO : ℚ → ℚ)
    (kmeans : List (List ℚ) → List ℕ) (s : NDBState) (training : List (List ℚ)) :
    ∀ i, i + 1 < (construct_bins sqrtO kmeans s none training).fst.binProportions.length →
      (construct_bins sqrtO kmeans s none training).fst.binProportions.getD (i + 1) 0 ≤
        (construct_bins sqrtO kmeans s none training).fst.binProportions.getD i 0 := by
  intro i hi
  rw [binProps_eq] at hi ⊢
  rw [List.length_map] at hi
  exact props_sorted _ i hi

/-- Concrete instance of the C3 descending-order property at the first pair
of bins of a two-bin fit. -/
theorem claim_C3_descending_proportions_witness :
    (construct_bins (fun q => q) (fun _ => [0, 1, 1]) (initialState 2 (1 / 20) false) none
        [[0], [1], [2]]).fst.binProportions.getD 1 0 ≤
      (construct_bins (fun q => q) (fun _ => [0, 1, 1]) (initialState 2 (1 / 20) false) none
        [[0], [1], [2]]).fst.binProportions.getD 0 0 :=
  claim_C3_descending_proportions (fun q => q) (fun _ => [0, 1, 1])
    (initialState 2 (1 / 20) false) [[0], [1], [2]] 0 (by decide)

end NDBModel
